import Mathlib

/-!
Shallow embedding of `argparse_subdec/subdec.py` (the `SubDec` class).

Python functions are modelled by `Fn` (identity id plus `__name__`); argument
values by `Val`; the registry `SubDec._SubDec__commands` (an insertion-ordered
`dict`) by an association list.  Decorator applications become `Op`s folded
over the state.  Materialization (`create_parsers`) is modelled as the list of
calls it performs on the external subparsers/parser objects (`Event`s),
together with an optional `AttributeError` raised by `getattr` when a recorded
method name is not an attribute of the parser object.
-/

/-- Opaque Python argument values as captured by decorators. -/
inductive Val where
  | vStr : String → Val
  | vInt : Int → Val
deriving DecidableEq

/-- A Python function: identity (`id`, distinct per function object) and its
`__name__`. -/
structure Fn where
  id : Nat
  name : String
deriving DecidableEq

/-- Character-level model of Python `s.startswith(pre)`. -/
def pyStartswith (s pre : String) : Bool :=
  pre.data.isPrefixOf s.data

/-- Model of the Python slice `s[n:]` (drop `n` characters). -/
def pyDrop (s : String) (n : Nat) : String :=
  String.mk (s.data.drop n)

/-- Model of Python `s.replace(chr, repl)` for a single-character pattern:
each occurrence of `c` is replaced by `repl`. -/
def pyReplaceChar (s : String) (c : Char) (repl : String) : String :=
  String.mk (s.data.foldr (fun ch acc => (if ch = c then repl.data else [ch]) ++ acc) [])

/-- Substring test on character lists: some suffix of `s` has `sub` as a
prefix. -/
def containsSub : List Char → List Char → Bool
  | [], sub => sub.isEmpty
  | c :: t, sub => sub.isPrefixOf (c :: t) || containsSub t sub

/-- Substring test on strings. -/
def strContains (s sub : String) : Bool :=
  containsSub s.data sub.data

/-- Embeds `SubparserCallDescriptor` (subdec.py lines 33-36). -/
structure SubparserCallDescriptor where
  method_name : String
  args : List Val
  kwargs : List (String × Val)
deriving DecidableEq

/-- Embeds `CommandDescriptor` (subdec.py lines 26-31). -/
structure CommandDescriptor where
  name : Option String
  fn : Fn
  subparser_call_stack : List SubparserCallDescriptor
  add_parser_args : Option (List Val × List (String × Val))
deriving DecidableEq

/-- The fresh descriptor minted by `__get_command` (subdec.py lines 161-166). -/
def initDescriptor (fn : Fn) : CommandDescriptor :=
  { name := none, fn := fn, subparser_call_stack := [], add_parser_args := none }

/-- Lookup in the insertion-ordered registry. -/
def lookupCmd : List (Fn × CommandDescriptor) → Fn → Option CommandDescriptor
  | [], _ => none
  | (g, c) :: rest, fn => if g = fn then some c else lookupCmd rest fn

/-- Membership test for the registry (models `fn not in self.__commands`). -/
def hasCmd (cmds : List (Fn × CommandDescriptor)) (fn : Fn) : Bool :=
  (lookupCmd cmds fn).isSome

/-- Embeds `__get_command`'s get-or-create step: a missing key is inserted at
the end (Python dicts preserve insertion order). -/
def ensureCmd (cmds : List (Fn × CommandDescriptor)) (fn : Fn) :
    List (Fn × CommandDescriptor) :=
  if hasCmd cmds fn then cmds else cmds ++ [(fn, initDescriptor fn)]

/-- In-place mutation of the descriptor of `fn` after get-or-create. -/
def modifyCmd (cmds : List (Fn × CommandDescriptor)) (fn : Fn)
    (f : CommandDescriptor → CommandDescriptor) : List (Fn × CommandDescriptor) :=
  (ensureCmd cmds fn).map (fun p => if p.1 = fn then (p.1, f p.2) else p)

/-- State of a `SubDec` instance: the three constructor options and the
registry (subdec.py lines 97-120).  `sep` is an `Option` because the code
tests `self.__sep is not None`. -/
structure SubDec where
  pfx : String
  fn_dest : String
  sep : Option String
  commands : List (Fn × CommandDescriptor)
deriving DecidableEq

/-- A freshly constructed `SubDec(name_prefix=pfx, fn_dest=fnDest, sep=sep)`. -/
def mkSubDec (pfx fnDest : String) (sep : Option String) : SubDec :=
  ⟨pfx, fnDest, sep, []⟩

/-- Embeds the `cmd` decorator (subdec.py lines 130-139): flattened form of
`sd.cmd(*k, **kw)(fn)`; it overwrites `add_parser_args`. -/
def SubDec.cmd (sd : SubDec) (k : List Val) (kw : List (String × Val)) (fn : Fn) :
    SubDec :=
  { sd with commands :=
      modifyCmd sd.commands fn (fun c => { c with add_parser_args := some (k, kw) }) }

/-- Embeds the dynamic-dispatch decorator (subdec.py lines 141-157): flattened
form of `getattr(sd, mname)(*k, **kw)(fn)`; it appends one record to
`subparser_call_stack`. -/
def SubDec.dynDec (sd : SubDec) (mname : String) (k : List Val)
    (kw : List (String × Val)) (fn : Fn) : SubDec :=
  { sd with commands := modifyCmd sd.commands fn (fun c =>
      { c with subparser_call_stack := c.subparser_call_stack ++ [⟨mname, k, kw⟩] }) }

/-- A decorator application, as recorded against the facade. -/
inductive Op where
  | cmdOp : List Val → List (String × Val) → Fn → Op
  | dynOp : String → List Val → List (String × Val) → Fn → Op
deriving DecidableEq

/-- The function a decorator application targets. -/
def Op.target : Op → Fn
  | .cmdOp _ _ fn => fn
  | .dynOp _ _ _ fn => fn

/-- Apply one decorator application to the facade state. -/
def applyOp (sd : SubDec) : Op → SubDec
  | .cmdOp k kw fn => sd.cmd k kw fn
  | .dynOp m k kw fn => sd.dynDec m k kw fn

/-- Apply a sequence of decorator applications, oldest first. -/
def applyOps (sd : SubDec) (ops : List Op) : SubDec :=
  ops.foldl applyOp sd

/-- The call records produced by the dynamic-dispatch applications of an op
sequence, in application order. -/
def dynRecords (ops : List Op) : List SubparserCallDescriptor :=
  ops.filterMap (fun op =>
    match op with
    | .dynOp m k kw _ => some ⟨m, k, kw⟩
    | .cmdOp _ _ _ => none)

/-- The `add_parser_args` value left by an op sequence, starting from `base`:
the last `cmdOp` wins. -/
def lastCmdArgs (base : Option (List Val × List (String × Val))) (ops : List Op) :
    Option (List Val × List (String × Val)) :=
  ops.foldl (fun acc op =>
    match op with
    | .cmdOp k kw _ => some (k, kw)
    | .dynOp _ _ _ _ => acc) base

/-- Count of dynamic-dispatch applications in an op sequence. -/
def countDyn : List Op → Nat
  | [] => 0
  | .dynOp _ _ _ _ :: rest => countDyn rest + 1
  | .cmdOp _ _ _ :: rest => countDyn rest

/-- Membership of a function in a key list. -/
def fnMem (fn : Fn) : List Fn → Bool
  | [] => false
  | g :: rest => if g = fn then true else fnMem fn rest

/-- Registry key sequence, in insertion order. -/
def keys (cmds : List (Fn × CommandDescriptor)) : List Fn :=
  cmds.map Prod.fst

/-- First-occurrence order of the functions targeted by an op sequence, given
the functions already seen. -/
def firstSeenAux (seen : List Fn) : List Op → List Fn
  | [] => []
  | op :: rest =>
    if fnMem op.target seen then firstSeenAux seen rest
    else op.target :: firstSeenAux (seen ++ [op.target]) rest

/-- First-occurrence order of the functions targeted by an op sequence. -/
def firstSeen (ops : List Op) : List Fn :=
  firstSeenAux [] ops

/-- Embeds the name derivation of `__create_parser` (subdec.py lines 174-179):
take `fn.__name__`, strip the configured name head when the name starts with
it, then replace each underscore by `sep` when `sep` is not `None`. -/
def deriveName (pfx : String) (sep : Option String) (fnName : String) : String :=
  let n := if pyStartswith fnName pfx then pyDrop fnName pfx.data.length else fnName
  match sep with
  | some s => pyReplaceChar n '_' s
  | none => n

/-- Embeds `name = cmd[...]; if not name: ...` (subdec.py lines 173-179):
Python truthiness makes both `None` and the empty string fall back to the
derived name. -/
def effectiveName (pfx : String) (sep : Option String) (c : CommandDescriptor) :
    String :=
  match c.name with
  | some n => if n.data.isEmpty then deriveName pfx sep c.fn.name else n
  | none => deriveName pfx sep c.fn.name

/-- Embeds the argument selection for `add_parser` (subdec.py lines 181-187). -/
def parserCreationArgs (pfx : String) (sep : Option String) (c : CommandDescriptor) :
    List Val × List (String × Val) :=
  match c.add_parser_args with
  | some (k, kw) => if k = [] then ([Val.vStr (effectiveName pfx sep c)], kw) else (k, kw)
  | none => ([Val.vStr (effectiveName pfx sep c)], [])

/-- One call performed on the external subparsers object or on a parser
returned by it. -/
inductive Event where
  | addParser : List Val → List (String × Val) → Event
  | setDefaults : String → Fn → Event
  | methodCall : String → List Val → List (String × Val) → Event
deriving DecidableEq

/-- The replayed call corresponding to a recorded descriptor. -/
def callEvent (r : SubparserCallDescriptor) : Event :=
  .methodCall r.method_name r.args r.kwargs

/-- The `AttributeError` raised by `getattr(parser, mname)` when the parser
object of class `objCls` has no attribute `mname`. -/
structure PyAttributeError where
  objCls : String
  attrName : String
deriving DecidableEq

/-- The message Python builds for the default `AttributeError`. -/
def PyAttributeError.msg (e : PyAttributeError) : String :=
  "\x27" ++ e.objCls ++ "\x27 object has no attribute \x27" ++ e.attrName ++ "\x27"

/-- Embeds the replay loop (subdec.py lines 192-194) on an already-reversed
call list: each record is looked up on the parser (class `cls`, attribute set
`supported`) and invoked; a missing attribute raises before any further
call. -/
def replayCalls (cls : String) (supported : List String) :
    List SubparserCallDescriptor → List Event × Option PyAttributeError
  | [] => ([], none)
  | r :: rest =>
    if supported.contains r.method_name then
      let out := replayCalls cls supported rest
      (callEvent r :: out.1, out.2)
    else ([], some ⟨cls, r.method_name⟩)

/-- Embeds `__create_parser` (subdec.py lines 169-194): create the sub-parser,
set the function default, then replay the call stack in reverse of recorded
order. -/
def createParser (pfx fnDest : String) (sep : Option String)
    (cls : String) (supported : List String) (c : CommandDescriptor) :
    List Event × Option PyAttributeError :=
  let a := parserCreationArgs pfx sep c
  let rep := replayCalls cls supported c.subparser_call_stack.reverse
  (Event.addParser a.1 a.2 :: Event.setDefaults fnDest c.fn :: rep.1, rep.2)

/-- Iterate `__create_parser` over the registry; an exception aborts the
remaining iterations and propagates. -/
def createParsersAux (pfx fnDest : String) (sep : Option String)
    (cls : String) (supported : List String) :
    List (Fn × CommandDescriptor) → List Event × Option PyAttributeError
  | [] => ([], none)
  | (_, c) :: rest =>
    let out := createParser pfx fnDest sep cls supported c
    match out.2 with
    | some e => (out.1, some e)
    | none =>
      let outRest := createParsersAux pfx fnDest sep cls supported rest
      (out.1 ++ outRest.1, outRest.2)

/-- Embeds `create_parsers` (subdec.py lines 122-128). -/
def SubDec.create_parsers (sd : SubDec) (cls : String) (supported : List String) :
    List Event × Option PyAttributeError :=
  createParsersAux sd.pfx sd.fn_dest sd.sep cls supported sd.commands

/-- Names of the replayed method calls in a trace, in order. -/
def methodNames : List Event → List String
  | [] => []
  | .methodCall m _ _ :: rest => m :: methodNames rest
  | .addParser _ _ :: rest => methodNames rest
  | .setDefaults _ _ :: rest => methodNames rest

/-- Arguments of the `add_parser` calls in a trace, in order. -/
def addParserEvents : List Event → List (List Val × List (String × Val))
  | [] => []
  | .addParser k kw :: rest => (k, kw) :: addParserEvents rest
  | .methodCall _ _ _ :: rest => addParserEvents rest
  | .setDefaults _ _ :: rest => addParserEvents rest

/-- Effect of one decorator application on the targeted descriptor. -/
def opUpd : Op → CommandDescriptor → CommandDescriptor
  | .cmdOp k kw _, c => { c with add_parser_args := some (k, kw) }
  | .dynOp m k kw _, c =>
      { c with subparser_call_stack := c.subparser_call_stack ++ [⟨m, k, kw⟩] }

/-- The dynamic-dispatch applications corresponding to a list of call records,
all targeting `fn`, in application order. -/
def dynOpsOf (fn : Fn) (recs : List SubparserCallDescriptor) : List Op :=
  recs.map (fun r => Op.dynOp r.method_name r.args r.kwargs fn)

/-- Concatenation of per-command event lists. -/
def eventsConcat : List (List Event) → List Event
  | [] => []
  | l :: rest => l ++ eventsConcat rest

/-- Sample function used by concrete instantiations. -/
def sampleFn : Fn := ⟨0, "f"⟩

/-- Sample function named `foo_bar`. -/
def fnFooBar : Fn := ⟨2, "foo_bar"⟩

/-- Sample recorded call stack: `"x"` was recorded last ("x" applied first as
the innermost decorator). -/
def sampleStack : List SubparserCallDescriptor := [⟨"y", [], []⟩, ⟨"x", [], []⟩]

/-- Sample descriptor with two recorded calls. -/
def sampleCmd : CommandDescriptor :=
  { name := none, fn := sampleFn, subparser_call_stack := sampleStack,
    add_parser_args := none }

/-- Sample descriptor whose `cmd` decoration supplied a positional name. -/
def sampleCmdWithArgs : CommandDescriptor :=
  { name := none, fn := sampleFn, subparser_call_stack := [],
    add_parser_args := some ([Val.vStr "x"], []) }

/-- Sample descriptor carrying an explicit non-empty name. -/
def cmdNamedX : CommandDescriptor :=
  { name := some "x", fn := sampleFn, subparser_call_stack := [],
    add_parser_args := none }

/-- Sample registered function `alpha` with one supported recorded call. -/
def fnAlpha : Fn := ⟨0, "alpha"⟩

/-- Sample registered function `zeta` whose recorded call is unsupported. -/
def fnZeta : Fn := ⟨1, "zeta"⟩

/-- Descriptor of `alpha`: one `add_argument` record. -/
def cmdAlpha : CommandDescriptor :=
  { name := none, fn := fnAlpha,
    subparser_call_stack := [⟨"add_argument", [Val.vStr "--x"], []⟩],
    add_parser_args := none }

/-- Descriptor of `zeta`: one record for the unsupported method `bogus`. -/
def cmdZeta : CommandDescriptor :=
  { name := none, fn := fnZeta, subparser_call_stack := [⟨"bogus", [], []⟩],
    add_parser_args := none }

/-- Two-command registry state: `alpha` fully supported, then `zeta`. -/
def sdTwo : SubDec := ⟨"", "fn", some "-", [(fnAlpha, cmdAlpha), (fnZeta, cmdZeta)]⟩

/-- The same two-command state built by replaying decorator applications. -/
def sdC5cex : SubDec :=
  applyOps (mkSubDec "" "fn" (some "-"))
    [Op.dynOp "add_argument" [Val.vStr "--x"] [] fnAlpha,
     Op.dynOp "bogus" [] [] fnZeta]

/-- One-command registry entry produced by a single dynamic decoration. -/
def sampleEntry : Fn × CommandDescriptor :=
  (sampleFn, ⟨none, sampleFn, [⟨"a", [], []⟩], none⟩)

/-- Sample op sequence touching two functions, `alpha` first. -/
def sampleOps : List Op :=
  [Op.dynOp "add_argument" [Val.vStr "--x"] [] fnAlpha,
   Op.dynOp "add_argument" [] [] fnZeta,
   Op.cmdOp [] [] fnAlpha]

/-! ## Registry lemmas -/

theorem lookupCmd_map_update (l : List (Fn × CommandDescriptor)) (fn : Fn)
    (f : CommandDescriptor → CommandDescriptor) :
    lookupCmd (l.map (fun p => if p.1 = fn then (p.1, f p.2) else p)) fn =
      (lookupCmd l fn).map f := by
  induction l with
  | nil => rfl
  | cons p rest ih =>
    obtain ⟨g, c⟩ := p
    show lookupCmd ((if g = fn then (g, f c) else (g, c)) :: _) fn = _
    by_cases h : g = fn
    · subst h
      rw [if_pos rfl]
      simp [lookupCmd]
    · rw [if_neg h]
      simp [lookupCmd, h, ih]

theorem lookupCmd_append_of_none (l : List (Fn × CommandDescriptor)) (fn : Fn)
    (l2 : List (Fn × CommandDescriptor)) (h : lookupCmd l fn = none) :
    lookupCmd (l ++ l2) fn = lookupCmd l2 fn := by
  induction l with
  | nil => rfl
  | cons p rest ih =>
    obtain ⟨g, c⟩ := p
    by_cases hg : g = fn
    · simp [lookupCmd, hg] at h
    · show lookupCmd ((g, c) :: (rest ++ l2)) fn = _
      simp only [lookupCmd, hg, if_false] at h ⊢
      exact ih h

theorem lookupCmd_ensureCmd_self (cmds : List (Fn × CommandDescriptor)) (fn : Fn) :
    lookupCmd (ensureCmd cmds fn) fn =
      some ((lookupCmd cmds fn).getD (initDescriptor fn)) := by
  unfold ensureCmd hasCmd
  cases h : lookupCmd cmds fn with
  | some c => simp [h]
  | none =>
    simp only [h, Option.isSome_none, Bool.false_eq_true, if_false, Option.getD_none]
    rw [lookupCmd_append_of_none cmds fn _ h]
    simp [lookupCmd]

theorem lookupCmd_modifyCmd_self (cmds : List (Fn × CommandDescriptor)) (fn : Fn)
    (f : CommandDescriptor → CommandDescriptor) :
    lookupCmd (modifyCmd cmds fn f) fn =
      some (f ((lookupCmd cmds fn).getD (initDescriptor fn))) := by
  unfold modifyCmd
  rw [lookupCmd_map_update, lookupCmd_ensureCmd_self]
  rfl

theorem hasCmd_modifyCmd_self (cmds : List (Fn × CommandDescriptor)) (fn : Fn)
    (f : CommandDescriptor → CommandDescriptor) :
    hasCmd (modifyCmd cmds fn f) fn = true := by
  unfold hasCmd
  rw [lookupCmd_modifyCmd_self]
  rfl

theorem ensureCmd_of_hasCmd (cmds : List (Fn × CommandDescriptor)) (fn : Fn)
    (h : hasCmd cmds fn = true) : ensureCmd cmds fn = cmds := by
  unfold ensureCmd
  rw [if_pos h]

theorem modifyCmd_modifyCmd (cmds : List (Fn × CommandDescriptor)) (fn : Fn)
    (f g : CommandDescriptor → CommandDescriptor) :
    modifyCmd (modifyCmd cmds fn f) fn g = modifyCmd cmds fn (fun c => g (f c)) := by
  have h1 : ensureCmd (modifyCmd cmds fn f) fn = modifyCmd cmds fn f :=
    ensureCmd_of_hasCmd _ _ (hasCmd_modifyCmd_self cmds fn f)
  show (ensureCmd (modifyCmd cmds fn f) fn).map _ = _
  rw [h1]
  unfold modifyCmd
  rw [List.map_map]
  simp only [List.map_eq_map_iff]
  intro p _
  by_cases h : p.1 = fn <;> simp [h]

theorem modifyCmd_congr (cmds : List (Fn × CommandDescriptor)) (fn : Fn)
    (f g : CommandDescriptor → CommandDescriptor) (h : ∀ c, f c = g c) :
    modifyCmd cmds fn f = modifyCmd cmds fn g := by
  unfold modifyCmd
  simp only [List.map_eq_map_iff]
  intro p _
  by_cases hp : p.1 = fn <;> simp [hp, h]

/-! ## Decorator application lemmas -/

theorem applyOps_cons (sd : SubDec) (op : Op) (rest : List Op) :
    applyOps sd (op :: rest) = applyOps (applyOp sd op) rest := rfl

theorem applyOps_append (sd : SubDec) (l1 l2 : List Op) :
    applyOps sd (l1 ++ l2) = applyOps (applyOps sd l1) l2 := by
  simp [applyOps, List.foldl_append]

theorem applyOp_pfx (sd : SubDec) (op : Op) : (applyOp sd op).pfx = sd.pfx := by
  cases op <;> rfl

theorem applyOp_fn_dest (sd : SubDec) (op : Op) :
    (applyOp sd op).fn_dest = sd.fn_dest := by
  cases op <;> rfl

theorem applyOp_sep (sd : SubDec) (op : Op) : (applyOp sd op).sep = sd.sep := by
  cases op <;> rfl

theorem applyOps_pfx (ops : List Op) : ∀ sd : SubDec, (applyOps sd ops).pfx = sd.pfx := by
  induction ops with
  | nil => intro sd; rfl
  | cons op rest ih =>
    intro sd
    rw [applyOps_cons, ih, applyOp_pfx]

theorem applyOps_fn_dest (ops : List Op) :
    ∀ sd : SubDec, (applyOps sd ops).fn_dest = sd.fn_dest := by
  induction ops with
  | nil => intro sd; rfl
  | cons op rest ih =>
    intro sd
    rw [applyOps_cons, ih, applyOp_fn_dest]

theorem applyOps_sep (ops : List Op) : ∀ sd : SubDec, (applyOps sd ops).sep = sd.sep := by
  induction ops with
  | nil => intro sd; rfl
  | cons op rest ih =>
    intro sd
    rw [applyOps_cons, ih, applyOp_sep]

theorem cmd_dynDec_comm (sd : SubDec) (fn : Fn) (k : List Val)
    (kw : List (String × Val)) (m : String) (a : List Val)
    (b : List (String × Val)) :
    SubDec.dynDec (SubDec.cmd sd k kw fn) m a b fn =
      SubDec.cmd (SubDec.dynDec sd m a b fn) k kw fn := by
  show SubDec.mk sd.pfx sd.fn_dest sd.sep _ = SubDec.mk sd.pfx sd.fn_dest sd.sep _
  rw [SubDec.mk.injEq]
  refine ⟨rfl, rfl, rfl, ?_⟩
  show modifyCmd
      (modifyCmd sd.commands fn (fun c => { c with add_parser_args := some (k, kw) })) fn
      (fun c => { c with subparser_call_stack := c.subparser_call_stack ++ [⟨m, a, b⟩] }) =
    modifyCmd
      (modifyCmd sd.commands fn
        (fun c => { c with subparser_call_stack := c.subparser_call_stack ++ [⟨m, a, b⟩] })) fn
      (fun c => { c with add_parser_args := some (k, kw) })
  rw [modifyCmd_modifyCmd, modifyCmd_modifyCmd]

theorem applyOps_cmdOp_comm (fn : Fn) (k : List Val) (kw : List (String × Val))
    (recs : List SubparserCallDescriptor) :
    ∀ sd : SubDec,
      applyOps (applyOp sd (Op.cmdOp k kw fn)) (dynOpsOf fn recs) =
        applyOp (applyOps sd (dynOpsOf fn recs)) (Op.cmdOp k kw fn) := by
  induction recs with
  | nil => intro sd; rfl
  | cons r rest ih =>
    intro sd
    show applyOps (applyOp (applyOp sd (Op.cmdOp k kw fn))
        (Op.dynOp r.method_name r.args r.kwargs fn)) (dynOpsOf fn rest) = _
    have hstep : applyOp (applyOp sd (Op.cmdOp k kw fn))
        (Op.dynOp r.method_name r.args r.kwargs fn) =
        applyOp (applyOp sd (Op.dynOp r.method_name r.args r.kwargs fn))
          (Op.cmdOp k kw fn) :=
      cmd_dynDec_comm sd fn k kw r.method_name r.args r.kwargs
    rw [hstep]
    exact ih (applyOp sd (Op.dynOp r.method_name r.args r.kwargs fn))

theorem lookupCmd_applyOp_self (sd : SubDec) (op : Op) (fn : Fn)
    (h : op.target = fn) :
    lookupCmd (applyOp sd op).commands fn =
      some (opUpd op ((lookupCmd sd.commands fn).getD (initDescriptor fn))) := by
  subst h
  cases op with
  | cmdOp k kw g =>
    show lookupCmd
        (modifyCmd sd.commands g (fun c => { c with add_parser_args := some (k, kw) })) g =
      some (opUpd (Op.cmdOp k kw g) ((lookupCmd sd.commands g).getD (initDescriptor g)))
    rw [lookupCmd_modifyCmd_self]
    rfl
  | dynOp m k kw g =>
    show lookupCmd
        (modifyCmd sd.commands g
          (fun c => { c with subparser_call_stack :=
              c.subparser_call_stack ++ [⟨m, k, kw⟩] })) g =
      some (opUpd (Op.dynOp m k kw g) ((lookupCmd sd.commands g).getD (initDescriptor g)))
    rw [lookupCmd_modifyCmd_self]
    rfl

theorem dynRecords_cons_cmd (k : List Val) (kw : List (String × Val)) (g : Fn)
    (rest : List Op) :
    dynRecords (Op.cmdOp k kw g :: rest) = dynRecords rest := by
  simp [dynRecords]

theorem dynRecords_cons_dyn (m : String) (k : List Val) (kw : List (String × Val))
    (g : Fn) (rest : List Op) :
    dynRecords (Op.dynOp m k kw g :: rest) = ⟨m, k, kw⟩ :: dynRecords rest := by
  simp [dynRecords]

theorem lastCmdArgs_cons_cmd (base : Option (List Val × List (String × Val)))
    (k : List Val) (kw : List (String × Val)) (g : Fn) (rest : List Op) :
    lastCmdArgs base (Op.cmdOp k kw g :: rest) = lastCmdArgs (some (k, kw)) rest := rfl

theorem lastCmdArgs_cons_dyn (base : Option (List Val × List (String × Val)))
    (m : String) (k : List Val) (kw : List (String × Val)) (g : Fn)
    (rest : List Op) :
    lastCmdArgs base (Op.dynOp m k kw g :: rest) = lastCmdArgs base rest := rfl

theorem dynRecords_length (ops : List Op) :
    (dynRecords ops).length = countDyn ops := by
  induction ops with
  | nil => rfl
  | cons op rest ih =>
    cases op with
    | cmdOp k kw g => rw [dynRecords_cons_cmd]; exact ih
    | dynOp m k kw g =>
      rw [dynRecords_cons_dyn]
      simp [countDyn, ih]

theorem lookupCmd_applyOps_on_fn (fn : Fn) (ops : List Op)
    (hall : ∀ op ∈ ops, op.target = fn) :
    ∀ (sd : SubDec) (d : CommandDescriptor), lookupCmd sd.commands fn = some d →
      lookupCmd (applyOps sd ops).commands fn =
        some { name := d.name, fn := d.fn,
               subparser_call_stack := d.subparser_call_stack ++ dynRecords ops,
               add_parser_args := lastCmdArgs d.add_parser_args ops } := by
  induction ops with
  | nil =>
    intro sd d hd
    simpa [applyOps, dynRecords, lastCmdArgs] using hd
  | cons op rest ih =>
    intro sd d hd
    have hop : op.target = fn := hall op (by simp)
    have hrest : ∀ o ∈ rest, o.target = fn := fun o ho => hall o (by simp [ho])
    have h1 : lookupCmd (applyOp sd op).commands fn = some (opUpd op d) := by
      rw [lookupCmd_applyOp_self sd op fn hop, hd]
      rfl
    have h2 := ih hrest (applyOp sd op) (opUpd op d) h1
    rw [applyOps_cons]
    rw [h2]
    cases op with
    | cmdOp k kw g =>
      rw [dynRecords_cons_cmd, lastCmdArgs_cons_cmd]
      rfl
    | dynOp m k kw g =>
      rw [dynRecords_cons_dyn, lastCmdArgs_cons_dyn]
      simp [opUpd]

/-! ## Materializer lemmas -/

theorem replayCalls_all (cls : String) (sup : List String) :
    ∀ calls : List SubparserCallDescriptor,
      (∀ r ∈ calls, sup.contains r.method_name = true) →
      replayCalls cls sup calls = (calls.map callEvent, none) := by
  intro calls
  induction calls with
  | nil => intro _; rfl
  | cons r rest ih =>
    intro h
    have hr : r.method_name ∈ sup := by simpa using h r (by simp)
    have hrest : ∀ x ∈ rest, sup.contains x.method_name = true :=
      fun x hx => h x (by simp [hx])
    simp [replayCalls, hr, ih hrest]

theorem replayCalls_split (cls : String) (sup : List String)
    (bad : SubparserCallDescriptor) (tail : List SubparserCallDescriptor)
    (hbad : sup.contains bad.method_name = false) :
    ∀ ok : List SubparserCallDescriptor,
      (∀ r ∈ ok, sup.contains r.method_name = true) →
      replayCalls cls sup (ok ++ bad :: tail) =
        (ok.map callEvent, some ⟨cls, bad.method_name⟩) := by
  have hbad' : bad.method_name ∉ sup := by simpa using hbad
  intro ok
  induction ok with
  | nil =>
    intro _
    simp [replayCalls, hbad']
  | cons r rest ih =>
    intro h
    have hr : r.method_name ∈ sup := by simpa using h r (by simp)
    have hrest : ∀ x ∈ rest, sup.contains x.method_name = true :=
      fun x hx => h x (by simp [hx])
    simp [replayCalls, hr, ih hrest]

theorem createParser_all (pfx fnDest : String) (sep : Option String) (cls : String)
    (sup : List String) (c : CommandDescriptor)
    (h : ∀ r ∈ c.subparser_call_stack, sup.contains r.method_name = true) :
    createParser pfx fnDest sep cls sup c =
      (Event.addParser (parserCreationArgs pfx sep c).1 (parserCreationArgs pfx sep c).2 ::
        Event.setDefaults fnDest c.fn :: (c.subparser_call_stack.reverse.map callEvent),
       none) := by
  have h' : ∀ r ∈ c.subparser_call_stack.reverse, sup.contains r.method_name = true :=
    fun r hr => h r (List.mem_reverse.mp hr)
  simp [createParser, replayCalls_all cls sup _ h']

theorem methodNames_append (l1 l2 : List Event) :
    methodNames (l1 ++ l2) = methodNames l1 ++ methodNames l2 := by
  induction l1 with
  | nil => rfl
  | cons e rest ih => cases e <;> simp [methodNames, ih]

theorem methodNames_map_callEvent (l : List SubparserCallDescriptor) :
    methodNames (l.map callEvent) = l.map (fun r => r.method_name) := by
  induction l with
  | nil => rfl
  | cons r rest ih => simp [callEvent, methodNames, ih]

theorem addParserEvents_append (l1 l2 : List Event) :
    addParserEvents (l1 ++ l2) = addParserEvents l1 ++ addParserEvents l2 := by
  induction l1 with
  | nil => rfl
  | cons e rest ih => cases e <;> simp [addParserEvents, ih]

theorem addParserEvents_map_callEvent (l : List SubparserCallDescriptor) :
    addParserEvents (l.map callEvent) = [] := by
  induction l with
  | nil => rfl
  | cons r rest ih => simp [callEvent, addParserEvents, ih]

theorem createParsersAux_cons (pfx fnDest : String) (sep : Option String)
    (cls : String) (sup : List String) (p : Fn × CommandDescriptor)
    (rest : List (Fn × CommandDescriptor)) :
    createParsersAux pfx fnDest sep cls sup (p :: rest) =
      match (createParser pfx fnDest sep cls sup p.2).2 with
      | some e => ((createParser pfx fnDest sep cls sup p.2).1, some e)
      | none =>
          ((createParser pfx fnDest sep cls sup p.2).1 ++
             (createParsersAux pfx fnDest sep cls sup rest).1,
           (createParsersAux pfx fnDest sep cls sup rest).2) := by
  obtain ⟨g, c⟩ := p
  rfl

theorem createParsersAux_all (pfx fnDest : String) (sep : Option String)
    (cls : String) (sup : List String) :
    ∀ cmds : List (Fn × CommandDescriptor),
      (∀ p ∈ cmds, ∀ r ∈ p.2.subparser_call_stack, sup.contains r.method_name = true) →
      createParsersAux pfx fnDest sep cls sup cmds =
        (eventsConcat (cmds.map (fun p => (createParser pfx fnDest sep cls sup p.2).1)),
         none) := by
  intro cmds
  induction cmds with
  | nil => intro _; rfl
  | cons p rest ih =>
    intro h
    have hp : ∀ r ∈ p.2.subparser_call_stack, sup.contains r.method_name = true :=
      h p (by simp)
    have hrest : ∀ q ∈ rest, ∀ r ∈ q.2.subparser_call_stack,
        sup.contains r.method_name = true := fun q hq => h q (by simp [hq])
    rw [createParsersAux_cons]
    rw [createParser_all pfx fnDest sep cls sup p.2 hp]
    rw [ih hrest]
    simp [eventsConcat, createParser_all pfx fnDest sep cls sup p.2 hp]

theorem createParsersAux_append_ok (pfx fnDest : String) (sep : Option String)
    (cls : String) (sup : List String) (post : List (Fn × CommandDescriptor)) :
    ∀ pre : List (Fn × CommandDescriptor),
      (∀ p ∈ pre, ∀ r ∈ p.2.subparser_call_stack, sup.contains r.method_name = true) →
      createParsersAux pfx fnDest sep cls sup (pre ++ post) =
        (eventsConcat (pre.map (fun p => (createParser pfx fnDest sep cls sup p.2).1)) ++
           (createParsersAux pfx fnDest sep cls sup post).1,
         (createParsersAux pfx fnDest sep cls sup post).2) := by
  intro pre
  induction pre with
  | nil => intro _; simp [eventsConcat]
  | cons p rest ih =>
    intro h
    have hp : ∀ r ∈ p.2.subparser_call_stack, sup.contains r.method_name = true :=
      h p (by simp)
    have hrest : ∀ q ∈ rest, ∀ r ∈ q.2.subparser_call_stack,
        sup.contains r.method_name = true := fun q hq => h q (by simp [hq])
    rw [List.cons_append, createParsersAux_cons]
    rw [createParser_all pfx fnDest sep cls sup p.2 hp]
    rw [ih hrest]
    simp [eventsConcat, createParser_all pfx fnDest sep cls sup p.2 hp]

/-! ## Registry key-order lemmas -/

theorem hasCmd_eq_fnMem (fn : Fn) :
    ∀ cmds : List (Fn × CommandDescriptor), hasCmd cmds fn = fnMem fn (keys cmds) := by
  intro cmds
  induction cmds with
  | nil => rfl
  | cons p rest ih =>
    obtain ⟨g, c⟩ := p
    by_cases h : g = fn
    · simp [hasCmd, lookupCmd, keys, fnMem, h]
    · simp only [hasCmd, lookupCmd, keys, fnMem, h, if_false, List.map_cons]
      simpa [hasCmd, keys] using ih

theorem keys_ensureCmd (cmds : List (Fn × CommandDescriptor)) (fn : Fn) :
    keys (ensureCmd cmds fn) =
      if fnMem fn (keys cmds) then keys cmds else keys cmds ++ [fn] := by
  unfold ensureCmd
  rw [hasCmd_eq_fnMem]
  by_cases h : fnMem fn (keys cmds) = true
  · rw [if_pos h, if_pos h]
  · have h' : fnMem fn (keys cmds) = false := by simpa using h
    rw [h']
    simp [keys]

theorem keys_modifyCmd (cmds : List (Fn × CommandDescriptor)) (fn : Fn)
    (f : CommandDescriptor → CommandDescriptor) :
    keys (modifyCmd cmds fn f) = keys (ensureCmd cmds fn) := by
  unfold modifyCmd keys
  rw [List.map_map]
  simp only [List.map_eq_map_iff]
  intro p _
  by_cases h : p.1 = fn <;> simp [h]

theorem keys_applyOp (sd : SubDec) (op : Op) :
    keys (applyOp sd op).commands =
      if fnMem op.target (keys sd.commands) then keys sd.commands
      else keys sd.commands ++ [op.target] := by
  cases op with
  | cmdOp k kw g =>
    show keys (modifyCmd sd.commands g (fun c => { c with add_parser_args := some (k, kw) })) =
      if fnMem g (keys sd.commands) = true then keys sd.commands
      else keys sd.commands ++ [g]
    rw [keys_modifyCmd, keys_ensureCmd]
  | dynOp m k kw g =>
    show keys (modifyCmd sd.commands g
        (fun c => { c with subparser_call_stack :=
            c.subparser_call_stack ++ [⟨m, k, kw⟩] })) =
      if fnMem g (keys sd.commands) = true then keys sd.commands
      else keys sd.commands ++ [g]
    rw [keys_modifyCmd, keys_ensureCmd]

theorem firstSeenAux_cons (seen : List Fn) (op : Op) (rest : List Op) :
    firstSeenAux seen (op :: rest) =
      if fnMem op.target seen then firstSeenAux seen rest
      else op.target :: firstSeenAux (seen ++ [op.target]) rest := rfl

theorem keys_applyOps (ops : List Op) :
    ∀ sd : SubDec,
      keys (applyOps sd ops).commands =
        keys sd.commands ++ firstSeenAux (keys sd.commands) ops := by
  induction ops with
  | nil => intro sd; simp [applyOps, firstSeenAux]
  | cons op rest ih =>
    intro sd
    rw [applyOps_cons, ih, keys_applyOp, firstSeenAux_cons]
    by_cases h : fnMem op.target (keys sd.commands) = true
    · simp [h]
    · have h' : fnMem op.target (keys sd.commands) = false := by simpa using h
      simp [h']

/-! ## Substring lemmas for the AttributeError message -/

theorem isPrefixOf_append_self (b : List Char) :
    ∀ sub : List Char, sub.isPrefixOf (sub ++ b) = true := by
  intro sub
  induction sub with
  | nil => simp [List.isPrefixOf]
  | cons c cs ih => simp [List.isPrefixOf, ih]

theorem containsSub_self_append (sub b : List Char) :
    containsSub (sub ++ b) sub = true := by
  cases sub with
  | nil =>
    cases b with
    | nil => rfl
    | cons c t => simp [containsSub, List.isPrefixOf]
  | cons c cs =>
    show containsSub (c :: (cs ++ b)) (c :: cs) = true
    have h : (c :: cs).isPrefixOf (c :: (cs ++ b)) = true := by
      have h2 := isPrefixOf_append_self b (c :: cs)
      simp only [List.cons_append] at h2
      exact h2
    simp [containsSub, h]

theorem containsSub_append_left (sub : List Char) :
    ∀ a s : List Char, containsSub s sub = true → containsSub (a ++ s) sub = true := by
  intro a
  induction a with
  | nil => intro s h; exact h
  | cons c t ih =>
    intro s h
    show (sub.isPrefixOf (c :: (t ++ s)) || containsSub (t ++ s) sub) = true
    rw [ih s h]
    simp

theorem strContains_msg_attrName (cls m : String) :
    strContains (PyAttributeError.msg ⟨cls, m⟩) m = true := by
  unfold strContains PyAttributeError.msg
  show containsSub ("\x27" ++ cls ++ "\x27 object has no attribute \x27" ++ m ++ "\x27").data
    m.data = true
  have hdata : ("\x27" ++ cls ++ "\x27 object has no attribute \x27" ++ m ++ "\x27").data =
      ("\x27" ++ cls ++ "\x27 object has no attribute \x27").data ++
        (m.data ++ "\x27".data) := by
    simp [String.data_append]
  rw [hdata]
  exact containsSub_append_left m.data _ _ (containsSub_self_append m.data _)

/-! ## Name-field invariance lemmas -/

theorem mem_ensureCmd (cmds : List (Fn × CommandDescriptor)) (fn : Fn)
    (p : Fn × CommandDescriptor) (h : p ∈ ensureCmd cmds fn) :
    p ∈ cmds ∨ p = (fn, initDescriptor fn) := by
  unfold ensureCmd at h
  by_cases hc : hasCmd cmds fn = true
  · rw [if_pos hc] at h
    exact Or.inl h
  · rw [if_neg hc] at h
    rcases List.mem_append.mp h with h1 | h2
    · exact Or.inl h1
    · simp at h2
      exact Or.inr h2

theorem name_modifyCmd (cmds : List (Fn × CommandDescriptor)) (fn : Fn)
    (f : CommandDescriptor → CommandDescriptor) (hf : ∀ c, (f c).name = c.name)
    (hall : ∀ p ∈ cmds, p.2.name = none) :
    ∀ p ∈ modifyCmd cmds fn f, p.2.name = none := by
  intro p hp
  unfold modifyCmd at hp
  rcases List.mem_map.mp hp with ⟨q, hq, hpq⟩
  have hqn : q.2.name = none := by
    rcases mem_ensureCmd cmds fn q hq with h1 | h2
    · exact hall q h1
    · rw [h2]
      rfl
  rw [← hpq]
  by_cases h : q.1 = fn
  · simp [h, hf, hqn]
  · simp [h, hqn]

theorem names_none_applyOps (ops : List Op) :
    ∀ sd : SubDec, (∀ p ∈ sd.commands, p.2.name = none) →
      ∀ p ∈ (applyOps sd ops).commands, p.2.name = none := by
  induction ops with
  | nil => intro sd h; exact h
  | cons op rest ih =>
    intro sd h
    rw [applyOps_cons]
    apply ih
    cases op with
    | cmdOp k kw g =>
      exact name_modifyCmd sd.commands g
        (fun c => { c with add_parser_args := some (k, kw) }) (fun c => rfl) h
    | dynOp m k kw g =>
      exact name_modifyCmd sd.commands g
        (fun c => { c with subparser_call_stack :=
            c.subparser_call_stack ++ [⟨m, k, kw⟩] }) (fun c => rfl) h

/-! ## Claim theorems -/

/-- C1: materialization replays a descriptor's `call_stack` in exactly the
reverse of recorded order; concretely, for a function decorated with dynamic
operations A then B then C in source order (C applied first by decorator
stacking, hence recorded first), the builder methods run in order A, B, C. -/
theorem claim_C1 (pfx fnDest : String) (sep : Option String) (cls : String)
    (sup : List String) (c : CommandDescriptor)
    (hsup : ∀ r ∈ c.subparser_call_stack, sup.contains r.method_name = true) :
    (createParser pfx fnDest sep cls sup c).1 =
      Event.addParser (parserCreationArgs pfx sep c).1 (parserCreationArgs pfx sep c).2 ::
        Event.setDefaults fnDest c.fn ::
          (c.subparser_call_stack.reverse.map callEvent) ∧
    methodNames (SubDec.create_parsers (applyOps (mkSubDec "" "fn" (some "-"))
        [Op.dynOp "C" [] [] sampleFn, Op.dynOp "B" [] [] sampleFn,
         Op.dynOp "A" [] [] sampleFn]) "P" ["A", "B", "C"]).1 = ["A", "B", "C"] := by
  constructor
  · rw [createParser_all pfx fnDest sep cls sup c hsup]
  · decide

theorem claim_C1_witness :
    (createParser "" "fn" (some "-") "P" ["x", "y"] sampleCmd).1 =
      Event.addParser (parserCreationArgs "" (some "-") sampleCmd).1
          (parserCreationArgs "" (some "-") sampleCmd).2 ::
        Event.setDefaults "fn" sampleCmd.fn ::
          (sampleCmd.subparser_call_stack.reverse.map callEvent) ∧
    methodNames (SubDec.create_parsers (applyOps (mkSubDec "" "fn" (some "-"))
        [Op.dynOp "C" [] [] sampleFn, Op.dynOp "B" [] [] sampleFn,
         Op.dynOp "A" [] [] sampleFn]) "P" ["A", "B", "C"]).1 = ["A", "B", "C"] :=
  claim_C1 "" "fn" (some "-") "P" ["x", "y"] sampleCmd (by decide)

/-- C2: with no explicit name, the sub-parser name is the function's own name
with the configured leading pattern stripped when present and, when a
separator is configured, each underscore replaced by it; `foo_bar` derives
`foo-bar` under defaults, and `cmd_build` derives `build` under the `cmd_`
setting. -/
theorem claim_C2 (pfx : String) (sep : Option String) (c : CommandDescriptor)
    (h : c.name = none) :
    effectiveName pfx sep c = deriveName pfx sep c.fn.name ∧
    deriveName "" (some "-") "foo_bar" = "foo-bar" ∧
    deriveName "cmd_" (some "-") "cmd_build" = "build" ∧
    deriveName "" none "two_words" = "two_words" := by
  refine ⟨?_, by decide, by decide, by decide⟩
  unfold effectiveName
  rw [h]

theorem claim_C2_witness :
    effectiveName "" (some "-") (initDescriptor fnFooBar) =
        deriveName "" (some "-") (initDescriptor fnFooBar).fn.name ∧
    deriveName "" (some "-") "foo_bar" = "foo-bar" ∧
    deriveName "cmd_" (some "-") "cmd_build" = "build" ∧
    deriveName "" none "two_words" = "two_words" :=
  claim_C2 "" (some "-") (initDescriptor fnFooBar) rfl

/-- C3: the arguments of the sub-parser creation call are decided by three
cases: a set `construction_args` with non-empty positional part is used
verbatim with its keyword part; a set `construction_args` with empty
positional part gets the effective name substituted as sole positional
argument, keeping the keyword part; an unset `construction_args` yields the
effective name alone and no keyword arguments. -/
theorem claim_C3 (pfx fnDest : String) (sep : Option String) (cls : String)
    (sup : List String) (c : CommandDescriptor) :
    (∀ k kw, c.add_parser_args = some (k, kw) → k ≠ [] →
      (createParser pfx fnDest sep cls sup c).1.head? = some (Event.addParser k kw)) ∧
    (∀ kw, c.add_parser_args = some ([], kw) →
      (createParser pfx fnDest sep cls sup c).1.head? =
        some (Event.addParser [Val.vStr (effectiveName pfx sep c)] kw)) ∧
    (c.add_parser_args = none →
      (createParser pfx fnDest sep cls sup c).1.head? =
        some (Event.addParser [Val.vStr (effectiveName pfx sep c)] [])) := by
  refine ⟨?_, ?_, ?_⟩
  · intro k kw h hne
    simp [createParser, parserCreationArgs, h, hne]
  · intro kw h
    simp [createParser, parserCreationArgs, h]
  · intro h
    simp [createParser, parserCreationArgs, h]

theorem claim_C3_witness :
    (createParser "" "fn" (some "-") "P" [] sampleCmdWithArgs).1.head? =
      some (Event.addParser [Val.vStr "x"] []) :=
  (claim_C3 "" "fn" (some "-") "P" [] sampleCmdWithArgs).1 [Val.vStr "x"] [] rfl
    (by decide)

/-- C6 (amended): an explicit descriptor name is used verbatim only when it
is non-empty; the empty string is falsy in the `if not name` test, so an
empty explicit name falls back to the derived name. -/
theorem claim_C6 (pfx : String) (sep : Option String) (c : CommandDescriptor)
    (n : String) (h : c.name = some n) :
    (n ≠ "" → effectiveName pfx sep c = n) ∧
    (n = "" → effectiveName pfx sep c = deriveName pfx sep c.fn.name) := by
  have he : effectiveName pfx sep c =
      if n.data.isEmpty then deriveName pfx sep c.fn.name else n := by
    unfold effectiveName
    rw [h]
  constructor
  · intro hne
    have hd : n.data.isEmpty = false := by
      cases hn : n.data with
      | nil => exact absurd (String.ext (by simp [hn])) hne
      | cons a t => rfl
    rw [he, hd]
    simp
  · intro hempty
    subst hempty
    rw [he]
    rfl

theorem claim_C6_witness : effectiveName "" (some "-") cmdNamedX = "x" :=
  (claim_C6 "" (some "-") cmdNamedX "x" rfl).1 (by decide)

theorem claim_C6_counterexample :
    effectiveName "" (some "-")
      { name := some "", fn := fnFooBar, subparser_call_stack := [],
        add_parser_args := none } = "foo-bar" ∧
    ("foo-bar" : String) ≠ "" := by decide

theorem dynOpsOf_targets (fn : Fn) (recs : List SubparserCallDescriptor) :
    ∀ op ∈ dynOpsOf fn recs, op.target = fn := by
  intro op hop
  rcases List.mem_map.mp hop with ⟨r, _, hr⟩
  rw [← hr]
  rfl

theorem dynRecords_dynOpsOf (fn : Fn) :
    ∀ recs : List SubparserCallDescriptor, dynRecords (dynOpsOf fn recs) = recs := by
  intro recs
  induction recs with
  | nil => rfl
  | cons r rest ih =>
    show dynRecords
      (Op.dynOp r.method_name r.args r.kwargs fn :: dynOpsOf fn rest) = r :: rest
    rw [dynRecords_cons_dyn, ih]

theorem lastCmdArgs_dynOpsOf (fn : Fn) :
    ∀ (recs : List SubparserCallDescriptor)
      (base : Option (List Val × List (String × Val))),
      lastCmdArgs base (dynOpsOf fn recs) = base := by
  intro recs
  induction recs with
  | nil => intro base; rfl
  | cons r rest ih =>
    intro base
    show lastCmdArgs base
      (Op.dynOp r.method_name r.args r.kwargs fn :: dynOpsOf fn rest) = base
    rw [lastCmdArgs_cons_dyn]
    exact ih base

/-- C9 (amended): applying dynamic-dispatch decorators in application order
`r :: recs` (so `r` is the bottom-most, first-applied one) on a fresh
function records `r` FIRST in `subparser_call_stack`, and materialization
replays it LAST: the replayed methods are `recs` reversed followed by `r`,
i.e. replay runs in reverse of recorded order (top-down source order), with
the last-applied (outermost) decorator replayed first. -/
theorem claim_C9 (pfx fnDest : String) (sep : Option String) (cls : String)
    (sup : List String) (sd : SubDec) (fn : Fn)
    (r : SubparserCallDescriptor) (recs : List SubparserCallDescriptor)
    (hfresh : lookupCmd sd.commands fn = none)
    (hsup : ∀ x ∈ r :: recs, sup.contains x.method_name = true) :
    lookupCmd (applyOps sd (dynOpsOf fn (r :: recs))).commands fn =
      some { name := none, fn := fn, subparser_call_stack := r :: recs,
             add_parser_args := none } ∧
    methodNames (createParser pfx fnDest sep cls sup
        { name := none, fn := fn, subparser_call_stack := r :: recs,
          add_parser_args := none }).1 =
      recs.reverse.map (fun x => x.method_name) ++ [r.method_name] ∧
    (recs.reverse.map (fun x => x.method_name) ++ [r.method_name]).getLast? =
      some r.method_name := by
  refine ⟨?_, ?_, ?_⟩
  · have hop0 : (Op.dynOp r.method_name r.args r.kwargs fn).target = fn := rfl
    have h1 : lookupCmd
        (applyOp sd (Op.dynOp r.method_name r.args r.kwargs fn)).commands fn =
        some (opUpd (Op.dynOp r.method_name r.args r.kwargs fn)
          (initDescriptor fn)) := by
      rw [lookupCmd_applyOp_self sd _ fn hop0, hfresh]
      rfl
    have h2 := lookupCmd_applyOps_on_fn fn (dynOpsOf fn recs)
      (dynOpsOf_targets fn recs)
      (applyOp sd (Op.dynOp r.method_name r.args r.kwargs fn))
      (opUpd (Op.dynOp r.method_name r.args r.kwargs fn) (initDescriptor fn)) h1
    show lookupCmd
        (applyOps (applyOp sd (Op.dynOp r.method_name r.args r.kwargs fn))
          (dynOpsOf fn recs)).commands fn = _
    rw [h2, dynRecords_dynOpsOf, lastCmdArgs_dynOpsOf]
    simp [opUpd, initDescriptor]
  · rw [createParser_all pfx fnDest sep cls sup _ hsup]
    simp only [methodNames]
    rw [methodNames_map_callEvent]
    simp [List.reverse_cons]
  · simp

theorem claim_C9_witness :
    lookupCmd (applyOps (mkSubDec "" "fn" (some "-"))
        (dynOpsOf sampleFn
          ((⟨"C", [], []⟩ : SubparserCallDescriptor) ::
            [⟨"B", [], []⟩, ⟨"A", [], []⟩]))).commands sampleFn =
      some { name := none, fn := sampleFn,
             subparser_call_stack :=
               (⟨"C", [], []⟩ : SubparserCallDescriptor) ::
                 [⟨"B", [], []⟩, ⟨"A", [], []⟩],
             add_parser_args := none } ∧
    methodNames (createParser "" "fn" (some "-") "P" ["A", "B", "C"]
        { name := none, fn := sampleFn,
          subparser_call_stack :=
            (⟨"C", [], []⟩ : SubparserCallDescriptor) ::
              [⟨"B", [], []⟩, ⟨"A", [], []⟩],
          add_parser_args := none }).1 =
      ([⟨"B", [], []⟩, ⟨"A", [], []⟩] : List SubparserCallDescriptor).reverse.map
          (fun x => x.method_name) ++
        [(⟨"C", [], []⟩ : SubparserCallDescriptor).method_name] ∧
    (([⟨"B", [], []⟩, ⟨"A", [], []⟩] : List SubparserCallDescriptor).reverse.map
          (fun x => x.method_name) ++
        [(⟨"C", [], []⟩ : SubparserCallDescriptor).method_name]).getLast? =
      some (⟨"C", [], []⟩ : SubparserCallDescriptor).method_name :=
  claim_C9 "" "fn" (some "-") "P" ["A", "B", "C"] (mkSubDec "" "fn" (some "-"))
    sampleFn ⟨"C", [], []⟩ [⟨"B", [], []⟩, ⟨"A", [], []⟩] rfl (by decide)

theorem claim_C9_counterexample :
    (lookupCmd (applyOps (mkSubDec "" "fn" (some "-"))
        [Op.dynOp "C" [] [] sampleFn, Op.dynOp "B" [] [] sampleFn,
         Op.dynOp "A" [] [] sampleFn]).commands sampleFn).map
        (fun c => c.subparser_call_stack.map (fun x => x.method_name)) =
      some ["C", "B", "A"] ∧
    (["C", "B", "A"] : List String).getLast? ≠ some "C" ∧
    methodNames (SubDec.create_parsers (applyOps (mkSubDec "" "fn" (some "-"))
        [Op.dynOp "C" [] [] sampleFn, Op.dynOp "B" [] [] sampleFn,
         Op.dynOp "A" [] [] sampleFn]) "P" ["A", "B", "C"]).1 = ["A", "B", "C"] ∧
    (["A", "B", "C"] : List String).head? ≠ some "C" := by decide

/-- C10: no public operation ever assigns a descriptor's `name` field, so in
every state reachable from a fresh facade each descriptor has `name = none`
and the explicit-name branch of name determination is never taken. -/
theorem claim_C10 (pfx fnDest : String) (sep : Option String) (ops : List Op)
    (p : Fn × CommandDescriptor)
    (hp : p ∈ (applyOps (mkSubDec pfx fnDest sep) ops).commands) :
    p.2.name = none ∧
    effectiveName pfx sep p.2 = deriveName pfx sep p.2.fn.name := by
  have h : p.2.name = none := by
    refine names_none_applyOps ops (mkSubDec pfx fnDest sep) ?_ p hp
    intro q hq
    simp [mkSubDec] at hq
  refine ⟨h, ?_⟩
  unfold effectiveName
  rw [h]

theorem claim_C10_witness :
    sampleEntry.2.name = none ∧
    effectiveName "" (some "-") sampleEntry.2 =
      deriveName "" (some "-") sampleEntry.2.fn.name :=
  claim_C10 "" "fn" (some "-") [Op.dynOp "a" [] [] sampleFn] sampleEntry (by decide)

/-- C4: the `cmd` decorator overwrites `add_parser_args` so only the last
such application's arguments remain, while every dynamic-dispatch decoration
appends one record; after any nonempty op sequence on a fresh function the
descriptor holds exactly the dynamic records in application order, the
last-applied `cmd` arguments, and a stack length equal to the number of
dynamic applications. -/
theorem claim_C4 (sd : SubDec) (fn : Fn) (op0 : Op) (rest : List Op)
    (hfresh : lookupCmd sd.commands fn = none)
    (hall : ∀ op ∈ op0 :: rest, op.target = fn) :
    lookupCmd (applyOps sd (op0 :: rest)).commands fn =
      some { name := none, fn := fn,
             subparser_call_stack := dynRecords (op0 :: rest),
             add_parser_args := lastCmdArgs none (op0 :: rest) } ∧
    (dynRecords (op0 :: rest)).length = countDyn (op0 :: rest) := by
  refine ⟨?_, dynRecords_length (op0 :: rest)⟩
  have hop0 : op0.target = fn := hall op0 (by simp)
  have hrest : ∀ o ∈ rest, o.target = fn := fun o ho => hall o (by simp [ho])
  have h1 : lookupCmd (applyOp sd op0).commands fn =
      some (opUpd op0 (initDescriptor fn)) := by
    rw [lookupCmd_applyOp_self sd op0 fn hop0, hfresh]
    rfl
  have h2 := lookupCmd_applyOps_on_fn fn rest hrest (applyOp sd op0)
    (opUpd op0 (initDescriptor fn)) h1
  rw [applyOps_cons, h2]
  cases op0 with
  | cmdOp k kw g =>
    rw [dynRecords_cons_cmd, lastCmdArgs_cons_cmd]
    rfl
  | dynOp m k kw g =>
    rw [dynRecords_cons_dyn, lastCmdArgs_cons_dyn]
    simp [opUpd, initDescriptor]

theorem claim_C4_witness :
    lookupCmd (applyOps (mkSubDec "" "fn" (some "-"))
        (Op.cmdOp [] [] sampleFn ::
          [Op.dynOp "a" [] [] sampleFn, Op.cmdOp [Val.vStr "n"] [] sampleFn])).commands
        sampleFn =
      some { name := none, fn := sampleFn,
             subparser_call_stack := dynRecords (Op.cmdOp [] [] sampleFn ::
               [Op.dynOp "a" [] [] sampleFn, Op.cmdOp [Val.vStr "n"] [] sampleFn]),
             add_parser_args := lastCmdArgs none (Op.cmdOp [] [] sampleFn ::
               [Op.dynOp "a" [] [] sampleFn, Op.cmdOp [Val.vStr "n"] [] sampleFn]) } ∧
    (dynRecords (Op.cmdOp [] [] sampleFn ::
        [Op.dynOp "a" [] [] sampleFn, Op.cmdOp [Val.vStr "n"] [] sampleFn])).length =
      countDyn (Op.cmdOp [] [] sampleFn ::
        [Op.dynOp "a" [] [] sampleFn, Op.cmdOp [Val.vStr "n"] [] sampleFn]) :=
  claim_C4 (mkSubDec "" "fn" (some "-")) sampleFn (Op.cmdOp [] [] sampleFn)
    [Op.dynOp "a" [] [] sampleFn, Op.cmdOp [Val.vStr "n"] [] sampleFn]
    rfl (by decide)

/-- C7: one `cmd` application commutes with any block of dynamic-dispatch
decorations on the same function: applying it before or after them yields the
identical facade state and hence identical materialization output. -/
theorem claim_C7 (sd : SubDec) (fn : Fn) (k : List Val) (kw : List (String × Val))
    (recs : List SubparserCallDescriptor) (cls : String) (sup : List String) :
    applyOps sd (Op.cmdOp k kw fn :: dynOpsOf fn recs) =
      applyOps sd (dynOpsOf fn recs ++ [Op.cmdOp k kw fn]) ∧
    SubDec.create_parsers (applyOps sd (Op.cmdOp k kw fn :: dynOpsOf fn recs)) cls sup =
      SubDec.create_parsers (applyOps sd (dynOpsOf fn recs ++ [Op.cmdOp k kw fn]))
        cls sup := by
  have h : applyOps sd (Op.cmdOp k kw fn :: dynOpsOf fn recs) =
      applyOps sd (dynOpsOf fn recs ++ [Op.cmdOp k kw fn]) := by
    rw [applyOps_cons, applyOps_append]
    exact applyOps_cmdOp_comm fn k kw recs sd
  exact ⟨h, by rw [h]⟩

theorem addParserEvents_createParsersAux (pfx fnDest : String) (sep : Option String)
    (cls : String) (sup : List String) :
    ∀ cmds : List (Fn × CommandDescriptor),
      (∀ p ∈ cmds, ∀ r ∈ p.2.subparser_call_stack, sup.contains r.method_name = true) →
      addParserEvents (createParsersAux pfx fnDest sep cls sup cmds).1 =
        cmds.map (fun p => parserCreationArgs pfx sep p.2) := by
  intro cmds
  induction cmds with
  | nil => intro _; rfl
  | cons p rest ih =>
    intro h
    have hp : ∀ r ∈ p.2.subparser_call_stack, sup.contains r.method_name = true :=
      h p (by simp)
    have hrest : ∀ q ∈ rest, ∀ r ∈ q.2.subparser_call_stack,
        sup.contains r.method_name = true := fun q hq => h q (by simp [hq])
    rw [createParsersAux_cons, createParser_all pfx fnDest sep cls sup p.2 hp]
    simp only []
    rw [addParserEvents_append]
    simp only [addParserEvents]
    rw [addParserEvents_map_callEvent, ih hrest]
    simp

/-- C8: the registry is order-preserving: its key sequence after any op
sequence is the first-decoration order of the targeted functions, and on a
fully supported registry materialize-all performs one `add_parser` call per
registered function in exactly registry order, with no error. -/
theorem claim_C8 (pfx fnDest : String) (sep : Option String) (ops : List Op)
    (cls : String) (sup : List String)
    (hsup : ∀ p ∈ (applyOps (mkSubDec pfx fnDest sep) ops).commands,
        ∀ r ∈ p.2.subparser_call_stack, sup.contains r.method_name = true) :
    keys (applyOps (mkSubDec pfx fnDest sep) ops).commands = firstSeen ops ∧
    addParserEvents
        (SubDec.create_parsers (applyOps (mkSubDec pfx fnDest sep) ops) cls sup).1 =
      (applyOps (mkSubDec pfx fnDest sep) ops).commands.map
        (fun p => parserCreationArgs pfx sep p.2) ∧
    (SubDec.create_parsers (applyOps (mkSubDec pfx fnDest sep) ops) cls sup).2 =
      none := by
  have hkeys : keys (applyOps (mkSubDec pfx fnDest sep) ops).commands = firstSeen ops := by
    rw [keys_applyOps]
    show keys [] ++ firstSeenAux (keys []) ops = firstSeen ops
    rfl
  have hcp : SubDec.create_parsers (applyOps (mkSubDec pfx fnDest sep) ops) cls sup =
      createParsersAux pfx fnDest sep cls sup
        (applyOps (mkSubDec pfx fnDest sep) ops).commands := by
    unfold SubDec.create_parsers
    rw [applyOps_pfx, applyOps_fn_dest, applyOps_sep]
    rfl
  refine ⟨hkeys, ?_, ?_⟩
  · rw [hcp]
    exact addParserEvents_createParsersAux pfx fnDest sep cls sup _ hsup
  · rw [hcp]
    rw [createParsersAux_all pfx fnDest sep cls sup _ hsup]

theorem claim_C8_witness :
    keys (applyOps (mkSubDec "" "fn" (some "-")) sampleOps).commands =
      firstSeen sampleOps ∧
    addParserEvents
        (SubDec.create_parsers (applyOps (mkSubDec "" "fn" (some "-")) sampleOps)
          "P" ["add_argument"]).1 =
      (applyOps (mkSubDec "" "fn" (some "-")) sampleOps).commands.map
        (fun p => parserCreationArgs "" (some "-") p.2) ∧
    (SubDec.create_parsers (applyOps (mkSubDec "" "fn" (some "-")) sampleOps)
        "P" ["add_argument"]).2 = none :=
  claim_C8 "" "fn" (some "-") sampleOps "P" ["add_argument"] (by decide)

/-- C5 (amended): an unsupported recorded method makes materialize-all raise
the `AttributeError` built by `getattr`, whose message names the offending
method (the error does not reference the target function); the failure
propagates to the caller, and nothing is rolled back: the events of every
command processed before the failing one, as well as the failing command's
creation, default assignment and successfully replayed calls, remain
performed. -/
theorem claim_C5 (sd : SubDec) (cls : String) (sup : List String)
    (pre rest : List (Fn × CommandDescriptor)) (fn : Fn) (c : CommandDescriptor)
    (ok tail : List SubparserCallDescriptor) (bad : SubparserCallDescriptor)
    (hcmds : sd.commands = pre ++ (fn, c) :: rest)
    (hpre : ∀ p ∈ pre, ∀ r ∈ p.2.subparser_call_stack,
        sup.contains r.method_name = true)
    (hrev : c.subparser_call_stack.reverse = ok ++ bad :: tail)
    (hok : ∀ r ∈ ok, sup.contains r.method_name = true)
    (hbad : sup.contains bad.method_name = false) :
    SubDec.create_parsers sd cls sup =
      (eventsConcat
          (pre.map (fun p => (createParser sd.pfx sd.fn_dest sd.sep cls sup p.2).1)) ++
         (Event.addParser (parserCreationArgs sd.pfx sd.sep c).1
              (parserCreationArgs sd.pfx sd.sep c).2 ::
            Event.setDefaults sd.fn_dest c.fn :: ok.map callEvent),
       some ⟨cls, bad.method_name⟩) ∧
    strContains (PyAttributeError.msg ⟨cls, bad.method_name⟩) bad.method_name =
      true := by
  refine ⟨?_, strContains_msg_attrName cls bad.method_name⟩
  have hc : createParser sd.pfx sd.fn_dest sd.sep cls sup c =
      (Event.addParser (parserCreationArgs sd.pfx sd.sep c).1
          (parserCreationArgs sd.pfx sd.sep c).2 ::
        Event.setDefaults sd.fn_dest c.fn :: ok.map callEvent,
       some ⟨cls, bad.method_name⟩) := by
    simp only [createParser]
    rw [hrev, replayCalls_split cls sup bad tail hbad ok hok]
  unfold SubDec.create_parsers
  rw [hcmds]
  rw [createParsersAux_append_ok sd.pfx sd.fn_dest sd.sep cls sup ((fn, c) :: rest)
    pre hpre]
  rw [createParsersAux_cons]
  simp only [hc]

theorem claim_C5_witness :
    SubDec.create_parsers sdTwo "ArgumentParser" ["add_argument"] =
      (eventsConcat
          ([(fnAlpha, cmdAlpha)].map (fun p =>
            (createParser sdTwo.pfx sdTwo.fn_dest sdTwo.sep "ArgumentParser"
              ["add_argument"] p.2).1)) ++
         (Event.addParser (parserCreationArgs sdTwo.pfx sdTwo.sep cmdZeta).1
              (parserCreationArgs sdTwo.pfx sdTwo.sep cmdZeta).2 ::
            Event.setDefaults sdTwo.fn_dest cmdZeta.fn ::
              ([] : List SubparserCallDescriptor).map callEvent),
       some ⟨"ArgumentParser",
         (⟨"bogus", [], []⟩ : SubparserCallDescriptor).method_name⟩) ∧
    strContains
        (PyAttributeError.msg ⟨"ArgumentParser",
          (⟨"bogus", [], []⟩ : SubparserCallDescriptor).method_name⟩)
        (⟨"bogus", [], []⟩ : SubparserCallDescriptor).method_name = true :=
  claim_C5 sdTwo "ArgumentParser" ["add_argument"] [(fnAlpha, cmdAlpha)] []
    fnZeta cmdZeta [] [] ⟨"bogus", [], []⟩ rfl (by decide) (by decide)
    (by decide) (by decide)

theorem claim_C5_counterexample :
    (SubDec.create_parsers sdC5cex "ArgumentParser" ["add_argument"]).2 =
      some ⟨"ArgumentParser", "bogus"⟩ ∧
    strContains (PyAttributeError.msg ⟨"ArgumentParser", "bogus"⟩) "bogus" = true ∧
    strContains (PyAttributeError.msg ⟨"ArgumentParser", "bogus"⟩) "zeta" = false ∧
    addParserEvents
        (SubDec.create_parsers sdC5cex "ArgumentParser" ["add_argument"]).1 =
      [([Val.vStr "alpha"], []), ([Val.vStr "zeta"], [])] := by decide
